import Mathlib

/-!
Shallow embedding of the nightshift filesystem driver (src/driver/mod.rs, with
src/driver.rs as the older revision of the same module) and of the storage
primitives it calls.  The driver code under src/ is embedded directly; the
Inode Store, Directory Index, Block Store and FileHandle buffer live in modules
that are not under src/ (queries/, models/, driver/handle.rs), so those are
modelled from the specification, each marked in its doc comment.

Machine integers are modelled as Nat with explicit wrap-around (mod 2^64 or
2^32) exactly where the Rust code can overflow.  The block payload bound `B`
(the negotiated maximum transfer size) and the write-buffer capacity `C` are
kept as parameters, as the spec leaves them as fixed constants.
-/

namespace Nightshift

/-- Error kinds of errors.rs (spec section 7). -/
inductive Err where
  | notFound
  | alreadyExists
  | notEmpty
  | invalidArgument
  | overflow
  | storageFailure
deriving DecidableEq, Repr

/-- A (seconds, nanoseconds) timestamp pair, from time.rs. -/
structure TimeSpec where
  secs : Nat
  nanos : Nat
deriving DecidableEq, Repr

/-- The inode attribute record (fuser::FileAttr as used by the driver):
id, byte size, 512-byte block count, link count, permission bits, ownership,
device id, flags and the four timestamps. -/
structure FileAttr where
  ino : Nat
  size : Nat
  blocks : Nat
  nlink : Nat
  perm : Nat
  uid : Nat
  gid : Nat
  rdev : Nat
  flags : Nat
  atime : TimeSpec
  mtime : TimeSpec
  ctime : TimeSpec
  crtime : TimeSpec
deriving DecidableEq, Repr

/-- Modelled from the spec: the persistent database state behind DatabaseOps
(queries/inode.rs, queries/dir_entry.rs, queries/block.rs are not under src/).
Inodes are keyed by id; directory entries by (parent id, name); content blocks
by (file id, block number), each block holding its compact logical payload. -/
structure State where
  inodes : Nat → Option FileAttr
  dirents : List ((Nat × List Nat) × Nat)
  blocks : Nat → Nat → Option (List Nat)

instance : Inhabited State := ⟨⟨fun _ => none, [], fun _ _ => none⟩⟩

/-- An open-file handle (driver/handle.rs is not under src/; modelled from the
spec's Open Handle: file id, write buffer tagged with its starting file offset,
end-of-file cache seeded by open, and the raw open-flag bits). The write
cursor of the spec is `bufTag + buf.length`. -/
structure FileHandle where
  ino : Nat
  bufTag : Nat
  buf : List Nat
  endOffset : Nat
  bits : Nat
deriving DecidableEq, Repr

/-- The driver: database state plus the slab-backed open-handle table
(slot array; a stale or freed slot holds none). -/
structure Driver where
  st : State
  handles : List (Option FileHandle)

/-- Wrapping u64 subtraction `a - b` as Rust release mode computes it,
for `a, b < 2^64`. -/
def u64sub (a b : Nat) : Nat := (a + 2 ^ 64 - b) % 2 ^ 64

/-- Rust's `u64::div_ceil`. -/
def divCeil (a b : Nat) : Nat := (a + b - 1) / b

/-- Inode Store patch of a single record (spec 4.1 `patch`): fails NotFound
if the inode is absent, otherwise rewrites the record through `f`. -/
def patchWith (st : State) (ino : Nat) (f : FileAttr → FileAttr) : Except Err State :=
  match st.inodes ino with
  | none => Except.error Err.notFound
  | some a =>
      Except.ok { st with inodes := fun i => if i = ino then some (f a) else st.inodes i }

/-- Applies a patch only when the optional field is present (setattr_impl's
`if let Some(v)` pattern). -/
def patchOpt {α : Type} (st : State) (ino : Nat) (o : Option α) (f : α → FileAttr → FileAttr) :
    Except Err State :=
  match o with
  | none => Except.ok st
  | some v => patchWith st ino (fun a => f v a)

/-- Error-propagating sequencing of the independent patch statements of one
setattr transaction. -/
def andThen {α : Type} (r : Except Err State) (k : State → Except Err α) : Except Err α :=
  match r with
  | Except.error e => Except.error e
  | Except.ok st => k st

/-- Inode Store `remove`. -/
def inodeRemove (st : State) (ino : Nat) : State :=
  { st with inodes := fun i => if i = ino then none else st.inodes i }

/-- Directory Index lookup (spec 4.2): child id of (parent, name), if any. -/
def direntLookup (st : State) (parent : Nat) (name : List Nat) : Option Nat :=
  (st.dirents.find? (fun e => e.1 = (parent, name))).map (fun e => e.2)

/-- Directory Index `remove`: drops the (parent, name) entry. -/
def direntRemove (st : State) (parent : Nat) (name : List Nat) : State :=
  { st with dirents := st.dirents.filter (fun e => ¬ (e.1 = (parent, name))) }

/-- Block Store `update`/`create` target: stores `content` as the block
(file `ino`, number `bno`). -/
def setBlock (st : State) (ino bno : Nat) (content : List Nat) : State :=
  { st with blocks := fun i b => if i = ino ∧ b = bno then some content else st.blocks i b }

/-- Block Store `remove_blocks_from` (spec 4.3): deletes every block of the
file at or beyond the given number. -/
def removeBlocksFrom (st : State) (ino fromBno : Nat) : State :=
  { st with blocks := fun i b => if i = ino ∧ fromBno ≤ b then none else st.blocks i b }

/-- Modelled from the spec: `Block::offset_to_bno` (models/block.rs is not
under src/) — the pure offset-to-block-number mapping, `offset / B`. -/
def offsetToBno (B off : Nat) : Nat := off / B

/-- Modelled from the spec: `Block::write_at(file_offset, data)` (models/block.rs
is not under src/).  Overlays a prefix of `data` onto the block's logical
content at the intra-block position, consuming at most the block's remaining
capacity, and reports `(new content, bytes_consumed, size_delta)` where the
delta is the extension past the previous logical end (0 for an interior
overwrite).  Assumes `bno * B ≤ wo` (the scan starts at the block containing
the write offset). -/
def blockWriteAt (B bno : Nat) (content : List Nat) (wo : Nat) (data : List Nat) :
    List Nat × Nat × Nat :=
  let intra := wo - bno * B
  let consumed := min data.length (B - intra)
  (content.take intra ++ data.take consumed ++ content.drop (intra + consumed),
   consumed,
   intra + consumed - content.length)

/-- Result of the overlay phase of the Block Store write algorithm. -/
structure OverlayResult where
  st : State
  rest : List Nat
  wo : Nat
  size : Nat

/-- Modelled from the spec (queries/block.rs `iter_blocks_from` is not under
src/), instantiated with the write visitor of write_impl (src/driver.rs
364-429): scan blocks of the file in ascending block-number order from `bno`,
overlaying the input onto each existing block via `write_at`, accumulating the
size delta, and stopping once the input is consumed.  `fuel` bounds the scan
(the callers pass enough to pass the last block the size invariant allows). -/
def overlay (B ino : Nat) : Nat → State → Nat → Nat → List Nat → Nat → OverlayResult
  | 0, st, _bno, wo, data, size => ⟨st, data, wo, size⟩
  | fuel + 1, st, bno, wo, data, size =>
    match st.blocks ino bno with
    | none => overlay B ino fuel st (bno + 1) wo data size
    | some content =>
        let r := blockWriteAt B bno content wo data
        let st1 := if 0 < r.2.1 then setBlock st ino bno r.1 else st
        let rest := data.drop r.2.1
        if rest = [] then ⟨st1, rest, wo + r.2.1, size + r.2.2⟩
        else overlay B ino fuel st1 (bno + 1) (wo + r.2.1) rest (size + r.2.2)

/-- Modelled from the spec: the tail loop of the Block Store write algorithm
(write_impl, src/driver.rs 414-420, with `create` from queries/block.rs not
under src/): repeatedly allocate a fresh block at the current offset, storing
as many leading bytes as fit in one block's payload, until the input is
consumed.  `fuel` is passed as the input length at the call site. -/
def createLoop (B ino : Nat) : Nat → State → Nat → List Nat → Nat → State × Nat
  | 0, st, _off, _data, size => (st, size)
  | fuel + 1, st, off, data, size =>
    if data = [] then (st, size)
    else
      let written := min data.length (B - off % B)
      let st1 := setBlock st ino (off / B) (data.take written)
      createLoop B ino fuel st1 (off + written) (data.drop written) (size + written)

/-- The Block Store write transaction (spec 4.3 write algorithm, following
write_impl of src/driver.rs 364-429): look up the inode, overlay the input
onto existing blocks from the block containing `off`, append the remainder as
fresh blocks, then persist the new size and the recomputed 512-byte block
count. -/
def writeTx (B : Nat) (st : State) (ino off : Nat) (data : List Nat) : Except Err State :=
  match st.inodes ino with
  | none => Except.error Err.notFound
  | some attr =>
      let o := overlay B ino (attr.size / B + 1) st (off / B) off data attr.size
      let k := createLoop B ino o.rest.length o.st o.wo o.rest o.size
      andThen (patchWith k.1 ino (fun a => { a with size := k.2 })) fun st3 =>
        patchWith st3 ino (fun a => { a with blocks := divCeil k.2 512 })

/-- The handle's write cursor: the file offset right after the buffered bytes. -/
def FileHandle.writeOffset (h : FileHandle) : Nat := h.bufTag + h.buf.length

/-- Modelled from the spec: `FileHandle::seek_to` (driver/handle.rs is not
under src/) — re-tags the (just flushed, hence empty) buffer at the new
offset. -/
def FileHandle.seekTo (h : FileHandle) (off : Nat) : FileHandle :=
  { h with bufTag := off, buf := [] }

/-- Modelled from the spec: `FileHandle::flush` (driver/handle.rs is not under
src/; spec 4.4) — a no-op on an empty buffer, otherwise commits the buffer via
the Block Store write algorithm at the buffer's tagged offset; on success the
cursor advances by the flushed length and the buffer empties; on failure the
buffer is left pending. -/
def FileHandle.flush (B : Nat) (st : State) (h : FileHandle) : Except Err (State × FileHandle) :=
  if h.buf = [] then Except.ok (st, h)
  else
    match writeTx B st h.ino h.bufTag h.buf with
    | Except.error e => Except.error e
    | Except.ok st1 =>
        Except.ok (st1, { h with bufTag := h.bufTag + h.buf.length, buf := [] })

/-- Modelled from the spec: `FileHandle::buffer_full` — the accumulator has
reached its capacity threshold `C`. -/
def FileHandle.bufferFull (C : Nat) (h : FileHandle) : Bool := C ≤ h.buf.length

/-- Modelled from the spec: `FileHandle::consume_input` — append to the buffer
as many leading input bytes as the capacity allows, returning how many were
consumed. -/
def FileHandle.consumeInput (C : Nat) (h : FileHandle) (data : List Nat) : FileHandle × Nat :=
  let k := min (C - h.buf.length) data.length
  ({ h with buf := h.buf ++ data.take k }, k)

/-- Slab lookup (slab::Slab::get): the handle in slot `fh`, if occupied. -/
def slabGet (hs : List (Option FileHandle)) (fh : Nat) : Option FileHandle :=
  hs.getD fh none

/-- Slab insert: occupy the first vacant slot (or append), returning the new
table and the slot's index. -/
def slabInsert : List (Option FileHandle) → FileHandle → List (Option FileHandle) × Nat
  | [], h => ([some h], 0)
  | none :: rest, h => (some h :: rest, 0)
  | some x :: rest, h =>
      let r := slabInsert rest h
      (some x :: r.1, r.2 + 1)

/-- Slab try_remove: vacate slot `fh`, returning the handle it held. -/
def slabRemove : List (Option FileHandle) → Nat → Option (FileHandle × List (Option FileHandle))
  | [], _ => none
  | some x :: rest, 0 => some (x, none :: rest)
  | none :: _, 0 => none
  | e :: rest, fh + 1 => (slabRemove rest fh).map (fun p => (p.1, e :: p.2))

/-- Slab in-place mutation through get_mut: store `h` back into slot `fh`. -/
def slabSet (hs : List (Option FileHandle)) (fh : Nat) (h : FileHandle) :
    List (Option FileHandle) :=
  hs.set fh (some h)

/-- open_impl (src/driver/mod.rs 221-226): look up the inode in a read
transaction (NotFound propagates), then allocate a handle slot seeded with the
file id and current size, echoing the flag bits. -/
def open_impl (d : Driver) (ino bits : Nat) : Driver × Except Err (Nat × Nat) :=
  match d.st.inodes ino with
  | none => (d, Except.error Err.notFound)
  | some attr =>
      let r := slabInsert d.handles ⟨ino, 0, [], attr.size, bits⟩
      ({ d with handles := r.1 }, Except.ok (r.2, bits))

/-- release_impl (src/driver/mod.rs 228-241): try_remove the handle slot
(NotFound if stale), then flush the removed handle's buffer in a write
transaction; a flush error is returned with the slot already freed. -/
def release_impl (B : Nat) (d : Driver) (fh : Nat) : Driver × Except Err Unit :=
  match slabRemove d.handles fh with
  | none => (d, Except.error Err.notFound)
  | some (h, hs1) =>
      match FileHandle.flush B d.st h with
      | Except.error e => ({ d with handles := hs1 }, Except.error e)
      | Except.ok (st1, _) => (⟨st1, hs1⟩, Except.ok ())

/-- The read scan (read_impl's visitor over iter_blocks_from, src/driver/mod.rs
260-263, with `copy_into` modelled from the spec: it appends the block's
logical bytes up to the output buffer's remaining capacity): visit blocks in
ascending number order from `bno`, appending each block's bytes capped at
`cap`, stopping once the buffer is full.  `fuel` bounds the scan. -/
def readScan (B : Nat) (st : State) (ino cap : Nat) : Nat → Nat → List Nat → List Nat
  | 0, _bno, buf => buf
  | fuel + 1, bno, buf =>
    match st.blocks ino bno with
    | none => readScan B st ino cap fuel (bno + 1) buf
    | some content =>
        let buf1 := buf ++ content.take (cap - buf.length)
        if buf1.length < cap then readScan B st ino cap fuel (bno + 1) buf1 else buf1

/-- read_impl (src/driver/mod.rs 243-267): in a read transaction, look up the
inode, compute `remaining = size - offset` with u64 wrap-around semantics,
cap the request at `min(size_req, remaining)`, and scan blocks from the block
containing the offset, copying into the capacity-capped output buffer. -/
def read_impl (B : Nat) (st : State) (ino off reqLen : Nat) : Except Err (List Nat) :=
  match st.inodes ino with
  | none => Except.error Err.notFound
  | some attr =>
      let remaining := u64sub attr.size off
      let cap := min reqLen remaining
      Except.ok (readScan B st ino cap (attr.size / B + 1) (off / B) [])

/-- Result of the buffered write loop: database, handle and outcome. -/
structure LoopResult where
  st : State
  h : FileHandle
  res : Except Err Unit

/-- The accumulate loop of write_impl (src/driver/mod.rs 297-303): while input
remains, flush the buffer when it is full (a flush failure aborts the call,
the handle keeping its buffer) and consume as much input as fits.  `fuel` is
passed as the input length at the call site. -/
def writeLoop (B C : Nat) : Nat → State → FileHandle → List Nat → LoopResult
  | 0, st, h, _data => ⟨st, h, Except.ok ()⟩
  | fuel + 1, st, h, data =>
    if data = [] then ⟨st, h, Except.ok ()⟩
    else
      match (if h.bufferFull C then h.flush B st else Except.ok (st, h)) with
      | Except.error e => ⟨st, h, Except.error e⟩
      | Except.ok (st1, h1) =>
          let r := h1.consumeInput C data
          writeLoop B C fuel st1 r.1 (data.drop r.2)

/-- write_impl (src/driver/mod.rs 269-305): look up the handle (NotFound if
stale); if the call's offset differs from the handle's write cursor this is a
seek — flush the buffer at its tagged offset in one write transaction (an
error aborts the call with nothing moved) and re-tag at the new offset; then
run the accumulate loop; the byte count accepted is the full input length. -/
def write_impl (B C : Nat) (d : Driver) (fh off : Nat) (data : List Nat) :
    Driver × Except Err Nat :=
  match slabGet d.handles fh with
  | none => (d, Except.error Err.notFound)
  | some h0 =>
      match (if h0.writeOffset ≠ off then
               match h0.flush B d.st with
               | Except.error e => Except.error e
               | Except.ok (st1, h1) => Except.ok (st1, h1.seekTo off)
             else Except.ok (d.st, h0) : Except Err (State × FileHandle)) with
      | Except.error e => (d, Except.error e)
      | Except.ok (st1, h1) =>
          match writeLoop B C data.length st1 h1 data with
          | ⟨st2, h2, Except.ok _⟩ =>
              (⟨st2, slabSet d.handles fh h2⟩, Except.ok data.length)
          | ⟨st2, h2, Except.error e⟩ =>
              (⟨st2, slabSet d.handles fh h2⟩, Except.error e)

/-- flush_impl (src/driver/mod.rs 307-311): look up the handle (NotFound if
stale) and flush its buffer in a write transaction; on failure the handle —
buffer included — stays in the table. -/
def flush_impl (B : Nat) (d : Driver) (fh : Nat) : Driver × Except Err Unit :=
  match slabGet d.handles fh with
  | none => (d, Except.error Err.notFound)
  | some h =>
      match h.flush B d.st with
      | Except.error e => (d, Except.error e)
      | Except.ok (st1, h1) => (⟨st1, slabSet d.handles fh h1⟩, Except.ok ())

/-- The Block Store truncation driven by a size change (setattr_impl,
src/driver/mod.rs 95-106): remove every block past the boundary block
`size / B`, and if the boundary block exists truncate its logical content to
`size mod B` (`Block::truncate` modelled from the spec, models/block.rs not
being under src/). -/
def truncateTx (B : Nat) (st : State) (ino s : Nat) : State :=
  let bno := offsetToBno B s
  let st1 := removeBlocksFrom st ino (bno + 1)
  match st1.blocks ino bno with
  | some content => setBlock st1 ino bno (content.take (s % B))
  | none => st1

/-- The write transaction of setattr_impl (src/driver/mod.rs 85-129): patch
each present field in source order; a present size first truncates the Block
Store (spec: remove blocks beyond the boundary, truncate the boundary block)
and then patches the size field; finally the record is looked up afresh. -/
def setattrTx (B : Nat) (st0 : State) (ino : Nat) (mode uid gid : Option Nat)
    (size : Option Nat) (atime mtime ctime crtime : Option TimeSpec) (flags : Option Nat) :
    Except Err (State × FileAttr) :=
  andThen (patchOpt st0 ino mode (fun v a => { a with perm := v })) fun st1 =>
  andThen (patchOpt st1 ino uid (fun v a => { a with uid := v })) fun st2 =>
  andThen (patchOpt st2 ino gid (fun v a => { a with gid := v })) fun st3 =>
  andThen (match size with
    | none => Except.ok st3
    | some s => patchWith (truncateTx B st3 ino s) ino (fun a => { a with size := s }))
    fun st4 =>
  andThen (patchOpt st4 ino atime (fun v a => { a with atime := v })) fun st5 =>
  andThen (patchOpt st5 ino mtime (fun v a => { a with mtime := v })) fun st6 =>
  andThen (patchOpt st6 ino ctime (fun v a => { a with ctime := v })) fun st7 =>
  andThen (patchOpt st7 ino crtime (fun v a => { a with crtime := v })) fun st8 =>
  andThen (patchOpt st8 ino flags (fun v a => { a with flags := v })) fun st9 =>
  match st9.inodes ino with
  | none => Except.error Err.notFound
  | some a => Except.ok (st9, a)

/-- setattr_impl (src/driver/mod.rs 68-130): runs the setattr write
transaction and returns the refreshed record; any error rolls the transaction
back, leaving the driver unchanged. -/
def setattr_impl (B : Nat) (d : Driver) (ino : Nat) (mode uid gid : Option Nat)
    (size : Option Nat) (atime mtime ctime crtime : Option TimeSpec) (flags : Option Nat) :
    Driver × Except Err FileAttr :=
  match setattrTx B d.st ino mode uid gid size atime mtime ctime crtime flags with
  | Except.error e => (d, Except.error e)
  | Except.ok (st1, a) => ({ d with st := st1 }, Except.ok a)

/-- unlink_impl (src/driver/mod.rs 167-181): inside one write transaction,
look up the entry and the inode, decrement the link count (u32 wrap-around as
in Rust release mode); while it stays positive only the count is patched,
otherwise every block of the file and then the inode record are removed; the
directory entry is removed in either case. -/
def unlink_impl (d : Driver) (parent : Nat) (name : List Nat) : Driver × Except Err Unit :=
  match direntLookup d.st parent name with
  | none => (d, Except.error Err.notFound)
  | some ino =>
      match d.st.inodes ino with
      | none => (d, Except.error Err.notFound)
      | some attr =>
          let nlink1 := (attr.nlink + (2 ^ 32 - 1)) % 2 ^ 32
          let st1 :=
            if 0 < nlink1 then
              { d.st with inodes := fun i =>
                  if i = ino then some { attr with nlink := nlink1 } else d.st.inodes i }
            else inodeRemove (removeBlocksFrom d.st ino 0) ino
          ({ d with st := direntRemove st1 parent name }, Except.ok ())

/-- rename_impl (src/driver/mod.rs 313-324) with the Directory Index `rename`
modelled from the spec (queries/dir_entry.rs is not under src/): in one write
transaction, fail NotFound if the source key is absent, otherwise remove the
old key, silently replace any entry at the destination key, and map the new
key to the same child id.  Inodes and blocks are untouched. -/
def rename_impl (d : Driver) (parent : Nat) (name : List Nat) (newparent : Nat)
    (newname : List Nat) : Driver × Except Err Unit :=
  match direntLookup d.st parent name with
  | none => (d, Except.error Err.notFound)
  | some child =>
      let pruned :=
        (d.st.dirents.filter (fun e => ¬ (e.1 = (parent, name)))).filter
          (fun e => ¬ (e.1 = (newparent, newname)))
      ({ d with st := { d.st with dirents := ((newparent, newname), child) :: pruned } },
       Except.ok ())

/-- The block the byte range `[bno*B, bno*B+B)` of a flat byte list would be
stored as: present exactly when the range meets the list.  A file whose blocks
all equal `blockAt B xs` holds the byte string `xs` laid out densely. -/
def blockAt (B : Nat) (xs : List Nat) (bno : Nat) : Option (List Nat) :=
  if bno * B < xs.length then some ((xs.drop (bno * B)).take B) else none

/-- The file `ino` holds exactly the byte string `xs`, laid out densely in
`B`-sized blocks, with a matching inode size. -/
def ChunkedAt (B : Nat) (st : State) (ino : Nat) (xs : List Nat) : Prop :=
  (∃ a, st.inodes ino = some a ∧ a.size = xs.length) ∧
    ∀ bno, st.blocks ino bno = blockAt B xs bno

/-- Splicing `ys` into `xs` at offset `o`: the content a write of `ys` at
offset `o` produces. -/
def splice (xs : List Nat) (o : Nat) (ys : List Nat) : List Nat :=
  xs.take o ++ ys ++ xs.drop (o + ys.length)

/-- A fresh, empty regular file with id 2. -/
def wAttr : FileAttr :=
  ⟨2, 0, 0, 1, 420, 1000, 1000, 0, 0, ⟨0, 0⟩, ⟨0, 0⟩, ⟨0, 0⟩, ⟨0, 0⟩⟩

/-- A database holding only the empty file 2. -/
def wSt : State :=
  { inodes := fun i => if i = 2 then some wAttr else none
    dirents := []
    blocks := fun _ _ => none }

/-- A driver over `wSt` with no open handles. -/
def wDrv : Driver := ⟨wSt, []⟩

/-- File 2 holding two bytes in its first block. -/
def cAttr2 : FileAttr :=
  ⟨2, 2, 1, 1, 420, 1000, 1000, 0, 0, ⟨0, 0⟩, ⟨0, 0⟩, ⟨0, 0⟩, ⟨0, 0⟩⟩

/-- A database where file 2 has size 2 and block 0 = [7, 9]. -/
def cSt2 : State :=
  { inodes := fun i => if i = 2 then some cAttr2 else none
    dirents := []
    blocks := fun i b => if i = 2 ∧ b = 0 then some [7, 9] else none }

/-- A driver whose only handle (slot 0) buffers one byte for file 9, while the
database holds no inode 9 — the file was removed while the handle was open,
so its next flush fails NotFound. -/
def c3Drv : Driver :=
  ⟨{ inodes := fun _ => none, dirents := [], blocks := fun _ _ => none },
   [some ⟨9, 0, [5], 0, 0⟩]⟩

/-- File 2 at size 9 (three blocks for B = 4). -/
def c4Attr : FileAttr :=
  ⟨2, 9, 1, 1, 420, 1000, 1000, 0, 0, ⟨0, 0⟩, ⟨0, 0⟩, ⟨0, 0⟩, ⟨0, 0⟩⟩

/-- A database where file 2 holds the nine bytes 1..9 in blocks of four. -/
def c4St : State :=
  { inodes := fun i => if i = 2 then some c4Attr else none
    dirents := []
    blocks := fun i b =>
      if i = 2 ∧ b = 0 then some [1, 2, 3, 4]
      else if i = 2 ∧ b = 1 then some [5, 6, 7, 8]
      else if i = 2 ∧ b = 2 then some [9]
      else none }

/-- A driver over `c4St`. -/
def c4Drv : Driver := ⟨c4St, []⟩

/-- A driver where directory 1 has the single entry "f" to file 2 (which has
one link and one block). -/
def c7Drv : Driver :=
  ⟨{ inodes := fun i => if i = 2 then some cAttr2 else none
     dirents := [((1, [102]), 2)]
     blocks := fun i b => if i = 2 ∧ b = 0 then some [7, 9] else none },
   []⟩

theorem u64sub_of_le {a b : Nat} (hba : b ≤ a) (ha : a < 2 ^ 64) : u64sub a b = a - b := by
  unfold u64sub
  have h1 : a + 2 ^ 64 - b = (a - b) + 2 ^ 64 := by omega
  rw [h1, Nat.add_mod_right, Nat.mod_eq_of_lt (by omega)]

theorem slabGet_insert (hs : List (Option FileHandle)) (h : FileHandle) :
    slabGet (slabInsert hs h).1 (slabInsert hs h).2 = some h := by
  induction hs with
  | nil => rfl
  | cons e rest ih =>
      cases e with
      | none => rfl
      | some x => simpa [slabInsert, slabGet, List.getD_cons_succ] using ih

theorem slabInsert_lt_length (hs : List (Option FileHandle)) (h : FileHandle) :
    (slabInsert hs h).2 < (slabInsert hs h).1.length := by
  induction hs with
  | nil => simp [slabInsert]
  | cons e rest ih =>
      cases e with
      | none => simp [slabInsert]
      | some x => simpa [slabInsert] using ih

theorem slabGet_set (hs : List (Option FileHandle)) (fh : Nat) (h : FileHandle)
    (hlt : fh < hs.length) : slabGet (slabSet hs fh h) fh = some h := by
  induction hs generalizing fh with
  | nil => simp at hlt
  | cons e rest ih =>
      cases fh with
      | zero => rfl
      | succ n =>
          have := ih n (by simpa using Nat.lt_of_succ_lt_succ hlt)
          simpa [slabSet, slabGet, List.set, List.getD_cons_succ] using this

theorem slabRemove_of_get (hs : List (Option FileHandle)) (fh : Nat) (h : FileHandle)
    (hg : slabGet hs fh = some h) :
    slabRemove hs fh = some (h, hs.set fh none) := by
  induction hs generalizing fh with
  | nil => simp [slabGet, List.getD] at hg
  | cons e rest ih =>
      cases fh with
      | zero =>
          cases e with
          | none => simp [slabGet, List.getD] at hg
          | some x =>
              have hx : x = h := by simpa [slabGet, List.getD] using hg
              subst hx; rfl
      | succ n =>
          cases e with
          | none =>
              have := ih n (by simpa [slabGet, List.getD_cons_succ] using hg)
              simp [slabRemove, this, List.set]
          | some x =>
              have := ih n (by simpa [slabGet, List.getD_cons_succ] using hg)
              simp [slabRemove, this, List.set]

theorem slabRemove_none_of_get_none (hs : List (Option FileHandle)) (fh : Nat)
    (hg : slabGet hs fh = none) : slabRemove hs fh = none := by
  induction hs generalizing fh with
  | nil => rfl
  | cons e rest ih =>
      cases fh with
      | zero =>
          cases e with
          | none => rfl
          | some x => simp [slabGet, List.getD] at hg
      | succ n =>
          have := ih n (by simpa [slabGet, List.getD_cons_succ] using hg)
          simp [slabRemove, this]

theorem slabGet_set_none (hs : List (Option FileHandle)) (fh : Nat) :
    slabGet (hs.set fh none) fh = none := by
  induction hs generalizing fh with
  | nil => rfl
  | cons e rest ih =>
      cases fh with
      | zero => rfl
      | succ n => simpa [slabGet, List.set, List.getD_cons_succ] using ih n

/-- C9: opening an id with no inode record fails NotFound before any handle
slot is allocated: the driver — handle table included — is returned
unchanged. -/
theorem C9_open_missing_inode (d : Driver) (ino bits : Nat)
    (h : d.st.inodes ino = none) :
    open_impl d ino bits = (d, Except.error Err.notFound) := by
  unfold open_impl
  rw [h]

theorem C9_open_missing_inode_witness :
    wDrv.st.inodes 5 = none ∧
      open_impl wDrv 5 0 = (wDrv, Except.error Err.notFound) :=
  ⟨rfl, C9_open_missing_inode wDrv 5 0 rfl⟩

/-- C10: a successful rename changes directory entries only — the inode store,
the block store and the handle table are exactly the same afterwards. -/
theorem C10_rename_frame (d : Driver) (p np : Nat) (n nn : List Nat) (child : Nat)
    (h : direntLookup d.st p n = some child) :
    ∃ d1, rename_impl d p n np nn = (d1, Except.ok ()) ∧
      d1.st.inodes = d.st.inodes ∧ d1.st.blocks = d.st.blocks ∧
      d1.handles = d.handles := by
  unfold rename_impl
  rw [h]
  exact ⟨_, rfl, rfl, rfl, rfl⟩

theorem C10_rename_frame_witness :
    direntLookup c7Drv.st 1 [102] = some 2 ∧
      ∃ d1, rename_impl c7Drv 1 [102] 1 [103] = (d1, Except.ok ()) ∧
        d1.st.inodes = c7Drv.st.inodes ∧ d1.st.blocks = c7Drv.st.blocks ∧
        d1.handles = c7Drv.handles :=
  ⟨by decide, C10_rename_frame c7Drv 1 1 [102] [103] 2 (by decide)⟩

theorem readScan_len_le (B : Nat) (st : State) (ino cap : Nat) :
    ∀ fuel bno buf, buf.length ≤ cap →
      (readScan B st ino cap fuel bno buf).length ≤ cap := by
  intro fuel
  induction fuel with
  | zero => intro bno buf hb; simpa [readScan] using hb
  | succ fuel ih =>
      intro bno buf hb
      simp only [readScan]
      cases hblk : st.blocks ino bno with
      | none => exact ih _ _ hb
      | some content =>
          dsimp only
          have h2 : (buf ++ content.take (cap - buf.length)).length =
              buf.length + min (cap - buf.length) content.length := by
            simp
          have h3 : min (cap - buf.length) content.length ≤ cap - buf.length :=
            Nat.min_le_left _ _
          by_cases hlt : (buf ++ content.take (cap - buf.length)).length < cap
          · rw [if_pos hlt]
            exact ih _ _ (Nat.le_of_lt hlt)
          · rw [if_neg hlt]
            omega

theorem readScan_none (B : Nat) (st : State) (ino cap : Nat) :
    ∀ fuel bno buf, (∀ k, bno ≤ k → st.blocks ino k = none) →
      readScan B st ino cap fuel bno buf = buf := by
  intro fuel
  induction fuel with
  | zero => intro bno buf _; rfl
  | succ fuel ih =>
      intro bno buf hnone
      simp only [readScan, hnone bno (Nat.le_refl bno)]
      exact ih (bno + 1) buf (fun k hk => hnone k (by omega))

theorem overlay_frame (B ino : Nat) :
    ∀ fuel st bno wo data size,
      (overlay B ino fuel st bno wo data size).st.inodes = st.inodes ∧
      (overlay B ino fuel st bno wo data size).st.dirents = st.dirents ∧
      ∀ j k, ¬ j = ino → (overlay B ino fuel st bno wo data size).st.blocks j k =
        st.blocks j k := by
  intro fuel
  induction fuel with
  | zero => intro st bno wo data size; exact ⟨rfl, rfl, fun _ _ _ => rfl⟩
  | succ fuel ih =>
      intro st bno wo data size
      simp only [overlay]
      cases hblk : st.blocks ino bno with
      | none => exact ih st (bno + 1) wo data size
      | some content =>
          dsimp only
          by_cases hc : 0 < (blockWriteAt B bno content wo data).2.1
          · rw [if_pos hc]
            by_cases hrest : data.drop (blockWriteAt B bno content wo data).2.1 = []
            · rw [if_pos hrest]
              exact ⟨rfl, rfl, fun j k hj => by simp [setBlock, hj]⟩
            · rw [if_neg hrest]
              obtain ⟨h1, h2, h3⟩ := ih (setBlock st ino bno (blockWriteAt B bno content wo data).1)
                (bno + 1) (wo + (blockWriteAt B bno content wo data).2.1)
                (data.drop (blockWriteAt B bno content wo data).2.1)
                (size + (blockWriteAt B bno content wo data).2.2)
              refine ⟨h1.trans rfl, h2.trans rfl, fun j k hj => ?_⟩
              rw [h3 j k hj]; simp [setBlock, hj]
          · rw [if_neg hc]
            by_cases hrest : data.drop (blockWriteAt B bno content wo data).2.1 = []
            · rw [if_pos hrest]
              exact ⟨rfl, rfl, fun _ _ _ => rfl⟩
            · rw [if_neg hrest]
              exact ih st (bno + 1) (wo + (blockWriteAt B bno content wo data).2.1)
                (data.drop (blockWriteAt B bno content wo data).2.1)
                (size + (blockWriteAt B bno content wo data).2.2)

theorem createLoop_frame (B ino : Nat) :
    ∀ fuel st off data size,
      (createLoop B ino fuel st off data size).1.inodes = st.inodes ∧
      (createLoop B ino fuel st off data size).1.dirents = st.dirents ∧
      ∀ j k, ¬ j = ino → (createLoop B ino fuel st off data size).1.blocks j k =
        st.blocks j k := by
  intro fuel
  induction fuel with
  | zero => intro st off data size; exact ⟨rfl, rfl, fun _ _ _ => rfl⟩
  | succ fuel ih =>
      intro st off data size
      simp only [createLoop]
      by_cases hd : data = []
      · rw [if_pos hd]
        exact ⟨rfl, rfl, fun _ _ _ => rfl⟩
      · rw [if_neg hd]
        obtain ⟨h1, h2, h3⟩ := ih
          (setBlock st ino (off / B) (data.take (min data.length (B - off % B))))
          (off + min data.length (B - off % B))
          (data.drop (min data.length (B - off % B)))
          (size + min data.length (B - off % B))
        refine ⟨h1.trans rfl, h2.trans rfl, fun j k hj => ?_⟩
        rw [h3 j k hj]; simp [setBlock, hj]

theorem patchWith_ok {st : State} {ino : Nat} {a : FileAttr} (f : FileAttr → FileAttr)
    (ha : st.inodes ino = some a) :
    patchWith st ino f = Except.ok
      { st with inodes := fun i => if i = ino then some (f a) else st.inodes i } := by
  unfold patchWith
  rw [ha]

theorem truncateTx_inodes (B : Nat) (st : State) (ino s : Nat) :
    (truncateTx B st ino s).inodes = st.inodes := by
  unfold truncateTx
  dsimp only
  cases hb : (removeBlocksFrom st ino (offsetToBno B s + 1)).blocks ino (offsetToBno B s)
  · rfl
  · rfl

theorem truncateTx_dirents (B : Nat) (st : State) (ino s : Nat) :
    (truncateTx B st ino s).dirents = st.dirents := by
  unfold truncateTx
  dsimp only
  cases hb : (removeBlocksFrom st ino (offsetToBno B s + 1)).blocks ino (offsetToBno B s)
  · rfl
  · rfl

theorem truncateTx_blocks_gt (B : Nat) (st : State) (ino s bno : Nat)
    (h : s / B < bno) : (truncateTx B st ino s).blocks ino bno = none := by
  unfold truncateTx
  dsimp only [offsetToBno]
  have hrm : (removeBlocksFrom st ino (s / B + 1)).blocks ino bno = none := by
    dsimp only [removeBlocksFrom]
    rw [if_pos ⟨rfl, by omega⟩]
  cases hb : (removeBlocksFrom st ino (s / B + 1)).blocks ino (s / B) with
  | none => exact hrm
  | some c =>
      dsimp only [setBlock]
      rw [if_neg (fun hcon => absurd hcon.2 (by omega))]
      exact hrm

theorem truncateTx_blocks_boundary (B : Nat) (st : State) (ino s : Nat) :
    (truncateTx B st ino s).blocks ino (s / B) =
      (st.blocks ino (s / B)).map (fun c => c.take (s % B)) := by
  unfold truncateTx
  dsimp only [offsetToBno]
  have hpass : (removeBlocksFrom st ino (s / B + 1)).blocks ino (s / B) =
      st.blocks ino (s / B) := by
    dsimp only [removeBlocksFrom]
    rw [if_neg (fun hcon => absurd hcon.2 (by omega))]
  rw [hpass]
  cases hb : st.blocks ino (s / B) with
  | none => exact hpass.trans hb
  | some c =>
      dsimp only [setBlock]
      rw [if_pos ⟨rfl, rfl⟩]
      rfl

theorem writeTx_ok_blocks (B : Nat) (st : State) (ino off : Nat) (data : List Nat)
    (st9 : State) (hok : writeTx B st ino off data = Except.ok st9) :
    ∃ a9, st9.inodes ino = some a9 ∧ a9.blocks = divCeil a9.size 512 := by
  unfold writeTx at hok
  cases ha : st.inodes ino with
  | none => rw [ha] at hok; cases hok
  | some attr =>
      rw [ha] at hok
      dsimp only at hok
      set o := overlay B ino (attr.size / B + 1) st (off / B) off data attr.size with ho
      set k := createLoop B ino o.rest.length o.st o.wo o.rest o.size with hk
      have hki : k.1.inodes ino = some attr := by
        rw [hk, (createLoop_frame B ino o.rest.length o.st o.wo o.rest o.size).1, ho,
          (overlay_frame B ino (attr.size / B + 1) st (off / B) off data attr.size).1, ha]
      rw [patchWith_ok _ hki] at hok
      dsimp only [andThen] at hok
      have h3 : ({ k.1 with inodes := fun i =>
          if i = ino then some { attr with size := k.2 } else k.1.inodes i } : State).inodes ino =
          some { attr with size := k.2 } := by simp
      rw [patchWith_ok _ h3] at hok
      cases hok
      exact ⟨{ attr with size := k.2, blocks := divCeil k.2 512 }, by simp, rfl⟩

/-- C2 (counterexample): file 2 has size 2, so a read at offset 3 is past the
end; the claim says it returns empty bytes, but the u64 subtraction
`size - offset` wraps around, the cap becomes the requested length, and the
scan returns bytes of the boundary block: the read yields [7], not []. -/
theorem C2_counterexample :
    cSt2.inodes 2 = some cAttr2 ∧ cAttr2.size ≤ 3 ∧
      read_impl 4 cSt2 2 3 1 = Except.ok [7] :=
  ⟨rfl, by decide, rfl⟩

/-- C2 (amended): when the offset is at most the size, a read succeeds and
returns at most `min(requested_len, size - offset)` bytes; a read returns
empty bytes when no block at or after the offset's block number exists (in
particular past the last block) — but an offset beyond the size that still
falls inside a stored block's range returns that block's bytes instead of
empty, as the counterexample shows. -/
theorem C2_read_caps (B : Nat) (st : State) (ino off reqLen : Nat) (a : FileAttr)
    (ha : st.inodes ino = some a) (hsz : a.size < 2 ^ 64) :
    (off ≤ a.size →
      ∃ bs, read_impl B st ino off reqLen = Except.ok bs ∧
        bs.length ≤ min reqLen (a.size - off)) ∧
    ((∀ k, off / B ≤ k → st.blocks ino k = none) →
      read_impl B st ino off reqLen = Except.ok []) := by
  unfold read_impl
  rw [ha]
  dsimp only
  constructor
  · intro hle
    rw [u64sub_of_le hle hsz]
    exact ⟨_, rfl, readScan_len_le B st ino _ _ _ _ (by simp)⟩
  · intro hnone
    rw [readScan_none B st ino _ _ _ _ hnone]

theorem C2_read_caps_witness :
    (cSt2.inodes 2 = some cAttr2 ∧ cAttr2.size < 2 ^ 64) ∧
      ((1 ≤ cAttr2.size →
        ∃ bs, read_impl 4 cSt2 2 1 5 = Except.ok bs ∧
          bs.length ≤ min 5 (cAttr2.size - 1)) ∧
       ((∀ k, 1 / 4 ≤ k → cSt2.blocks 2 k = none) →
        read_impl 4 cSt2 2 1 5 = Except.ok [])) :=
  ⟨⟨rfl, by decide⟩, C2_read_caps 4 cSt2 2 1 5 cAttr2 rfl (by decide)⟩

theorem flush_fail_of_no_inode (B : Nat) (st : State) (h : FileHandle)
    (hbuf : ¬ h.buf = []) (hino : st.inodes h.ino = none) :
    FileHandle.flush B st h = Except.error Err.notFound := by
  have hw : writeTx B st h.ino h.bufTag h.buf = Except.error Err.notFound := by
    unfold writeTx
    rw [hino]
  unfold FileHandle.flush
  rw [if_neg hbuf, hw]

/-- C3 (counterexample): slot 0 buffers one byte for file 9, whose inode is
gone, so the release-triggered flush fails; the error is surfaced, but because
release removes the handle from the table before flushing, no handle holds the
buffered byte afterwards — the bytes do not remain pending. -/
theorem C3_counterexample :
    slabGet c3Drv.handles 0 = some ⟨9, 0, [5], 0, 0⟩ ∧
      c3Drv.st.inodes 9 = none ∧
      (release_impl 4 c3Drv 0).2 = Except.error Err.notFound ∧
      (release_impl 4 c3Drv 0).1.handles = [none] :=
  ⟨rfl, rfl, rfl, rfl⟩

/-- C3 (amended): when a flush fails (here: the inode is gone), a flush
triggered by a `flush` call or by a `write` call's seek surfaces the error and
leaves the driver — the handle and its buffer included — unchanged, so the
bytes remain pending; a flush triggered by `release` also surfaces the error,
but the handle has already been removed from the table, so its buffered bytes
are discarded rather than kept pending. -/
theorem C3_flush_failure (B C : Nat) (d : Driver) (fh off : Nat) (data : List Nat)
    (h : FileHandle) (hget : slabGet d.handles fh = some h) (hbuf : ¬ h.buf = [])
    (hino : d.st.inodes h.ino = none) :
    flush_impl B d fh = (d, Except.error Err.notFound) ∧
    (¬ h.writeOffset = off →
      write_impl B C d fh off data = (d, Except.error Err.notFound)) ∧
    (release_impl B d fh =
      ({ d with handles := d.handles.set fh none }, Except.error Err.notFound) ∧
      slabGet (d.handles.set fh none) fh = none) := by
  refine ⟨?_, ?_, ?_, slabGet_set_none d.handles fh⟩
  · unfold flush_impl
    rw [hget]
    dsimp only
    rw [flush_fail_of_no_inode B d.st h hbuf hino]
  · intro hne
    unfold write_impl
    rw [hget]
    dsimp only
    rw [if_pos hne, flush_fail_of_no_inode B d.st h hbuf hino]
  · unfold release_impl
    rw [slabRemove_of_get d.handles fh h hget]
    dsimp only
    rw [flush_fail_of_no_inode B d.st h hbuf hino]

theorem C3_flush_failure_witness :
    (slabGet c3Drv.handles 0 = some ⟨9, 0, [5], 0, 0⟩ ∧
      ¬ (⟨9, 0, [5], 0, 0⟩ : FileHandle).buf = [] ∧
      c3Drv.st.inodes 9 = none) ∧
      (flush_impl 4 c3Drv 0 = (c3Drv, Except.error Err.notFound) ∧
      (¬ (⟨9, 0, [5], 0, 0⟩ : FileHandle).writeOffset = 7 →
        write_impl 4 2 c3Drv 0 7 [1] = (c3Drv, Except.error Err.notFound)) ∧
      (release_impl 4 c3Drv 0 =
        ({ c3Drv with handles := c3Drv.handles.set 0 none }, Except.error Err.notFound) ∧
        slabGet (c3Drv.handles.set 0 none) 0 = none)) :=
  ⟨⟨rfl, by decide, rfl⟩,
    C3_flush_failure 4 2 c3Drv 0 7 [1] ⟨9, 0, [5], 0, 0⟩ rfl (by decide) rfl⟩

/-- C5 (counterexample): on the empty file 2 (block_count 0), set_attributes
with size 1024 persists size = 1024 but leaves block_count at 0, while
ceil(1024 / 512) = 2 — the block_count invariant is not re-established by
set_attributes. -/
theorem C5_counterexample :
    (setattr_impl 4 wDrv 2 none none none (some 1024) none none none none none).2 =
        Except.ok { wAttr with size := 1024 } ∧
      ¬ ({ wAttr with size := 1024 } : FileAttr).blocks =
          divCeil ({ wAttr with size := 1024 } : FileAttr).size 512 :=
  ⟨rfl, by decide⟩

/-- C5 (amended): the write path re-establishes the invariant — any successful
Block Store write transaction leaves the inode with
block_count = ceil(size / 512) — but a set_attributes call carrying a size
patches the size field only, leaving the previously stored block_count
untouched. -/
theorem C5_block_count (B : Nat) (st : State) (ino off : Nat) (data : List Nat)
    (st9 : State) (d : Driver) (s : Nat) (a : FileAttr)
    (hok : writeTx B st ino off data = Except.ok st9)
    (ha : d.st.inodes ino = some a) :
    (∃ a9, st9.inodes ino = some a9 ∧ a9.blocks = divCeil a9.size 512) ∧
    (∃ d1, setattr_impl B d ino none none none (some s) none none none none none =
        (d1, Except.ok { a with size := s }) ∧
      d1.st.inodes ino = some { a with size := s } ∧
      ({ a with size := s } : FileAttr).blocks = a.blocks) := by
  refine ⟨writeTx_ok_blocks B st ino off data st9 hok, ?_⟩
  unfold setattr_impl setattrTx
  dsimp only [patchOpt, andThen]
  have hti : (truncateTx B d.st ino s).inodes ino = some a := by
    rw [truncateTx_inodes]; exact ha
  rw [patchWith_ok _ hti]
  dsimp only [andThen]
  rw [show (if ino = ino then some { a with size := s } else
      (truncateTx B d.st ino s).inodes ino) = some { a with size := s } from if_pos rfl]
  exact ⟨_, rfl, by simp, rfl⟩

theorem C5_block_count_witness :
    (writeTx 4 wSt 2 0 [1, 2, 3] = Except.ok (writeTx 4 wSt 2 0 [1, 2, 3]).toOption.get! ∧
      wDrv.st.inodes 2 = some wAttr) ∧
    ((∃ a9, ((writeTx 4 wSt 2 0 [1, 2, 3]).toOption.get!).inodes 2 = some a9 ∧
        a9.blocks = divCeil a9.size 512) ∧
     (∃ d1, setattr_impl 4 wDrv 2 none none none (some 7) none none none none none =
        (d1, Except.ok { wAttr with size := 7 }) ∧
      d1.st.inodes 2 = some { wAttr with size := 7 } ∧
      ({ wAttr with size := 7 } : FileAttr).blocks = wAttr.blocks)) :=
  ⟨⟨rfl, rfl⟩,
    C5_block_count 4 wSt 2 0 [1, 2, 3] (writeTx 4 wSt 2 0 [1, 2, 3]).toOption.get!
      wDrv 7 wAttr rfl rfl⟩

theorem patchOpt_pres {α : Type} (st : State) (ino : Nat) (o : Option α)
    (f : α → FileAttr → FileAttr)
    (hf : ∀ v b, (f v b).size = b.size) (a : FileAttr) (ha : st.inodes ino = some a) :
    ∃ st1 a1, patchOpt st ino o f = Except.ok st1 ∧ st1.inodes ino = some a1 ∧
      a1.size = a.size ∧ st1.blocks = st.blocks ∧ st1.dirents = st.dirents := by
  cases o with
  | none => exact ⟨st, a, rfl, ha, rfl, rfl, rfl⟩
  | some v =>
      refine ⟨_, f v a, patchWith_ok _ ha, ?_, hf v a, rfl, rfl⟩
      simp

theorem patchSize_pres (B : Nat) (st : State) (ino s : Nat) (a : FileAttr)
    (ha : st.inodes ino = some a) :
    ∃ st1 a1, patchWith (truncateTx B st ino s) ino (fun b => { b with size := s }) =
        Except.ok st1 ∧
      st1.inodes ino = some a1 ∧ a1.size = s ∧
      st1.blocks = (truncateTx B st ino s).blocks ∧ st1.dirents = st.dirents := by
  have hti : (truncateTx B st ino s).inodes ino = some a := by
    rw [truncateTx_inodes]; exact ha
  refine ⟨_, { a with size := s }, patchWith_ok _ hti, ?_, rfl, rfl, ?_⟩
  · simp
  · exact truncateTx_dirents B st ino s

/-- C4: a set_attributes call whose patch-set contains size s truncates the
Block Store — every block strictly beyond the boundary block s / B is removed
and the boundary block, if stored, has its logical content cut to s mod B —
persists size = s, and returns the refreshed record. -/
theorem C4_setattr_truncation (B : Nat) (d : Driver) (ino s : Nat)
    (mode uid gid : Option Nat) (atime mtime ctime crtime : Option TimeSpec)
    (flags : Option Nat) (a : FileAttr) (ha : d.st.inodes ino = some a) :
    ∃ d1 a1, setattr_impl B d ino mode uid gid (some s) atime mtime ctime crtime flags =
        (d1, Except.ok a1) ∧
      a1.size = s ∧ d1.st.inodes ino = some a1 ∧
      (∀ bno, s / B < bno → d1.st.blocks ino bno = none) ∧
      d1.st.blocks ino (s / B) = (d.st.blocks ino (s / B)).map (fun c => c.take (s % B)) := by
  obtain ⟨st1, a1, h1ok, h1i, h1s, h1b, h1d⟩ :=
    patchOpt_pres d.st ino mode (fun v a => { a with perm := v }) (fun _ _ => rfl) a ha
  obtain ⟨st2, a2, h2ok, h2i, h2s, h2b, h2d⟩ :=
    patchOpt_pres st1 ino uid (fun v a => { a with uid := v }) (fun _ _ => rfl) a1 h1i
  obtain ⟨st3, a3, h3ok, h3i, h3s, h3b, h3d⟩ :=
    patchOpt_pres st2 ino gid (fun v a => { a with gid := v }) (fun _ _ => rfl) a2 h2i
  obtain ⟨st4, a4, h4ok, h4i, h4s, h4b, h4d⟩ := patchSize_pres B st3 ino s a3 h3i
  obtain ⟨st5, a5, h5ok, h5i, h5s, h5b, h5d⟩ :=
    patchOpt_pres st4 ino atime (fun v a => { a with atime := v }) (fun _ _ => rfl) a4 h4i
  obtain ⟨st6, a6, h6ok, h6i, h6s, h6b, h6d⟩ :=
    patchOpt_pres st5 ino mtime (fun v a => { a with mtime := v }) (fun _ _ => rfl) a5 h5i
  obtain ⟨st7, a7, h7ok, h7i, h7s, h7b, h7d⟩ :=
    patchOpt_pres st6 ino ctime (fun v a => { a with ctime := v }) (fun _ _ => rfl) a6 h6i
  obtain ⟨st8, a8, h8ok, h8i, h8s, h8b, h8d⟩ :=
    patchOpt_pres st7 ino crtime (fun v a => { a with crtime := v }) (fun _ _ => rfl) a7 h7i
  obtain ⟨st9, a9, h9ok, h9i, h9s, h9b, h9d⟩ :=
    patchOpt_pres st8 ino flags (fun v a => { a with flags := v }) (fun _ _ => rfl) a8 h8i
  have hblocks9 : st9.blocks = (truncateTx B st3 ino s).blocks := by
    rw [h9b, h8b, h7b, h6b, h5b, h4b]
  refine ⟨{ d with st := st9 }, a9, ?_, ?_, h9i, ?_, ?_⟩
  · unfold setattr_impl setattrTx
    rw [h1ok]; dsimp only [andThen]
    rw [h2ok]; dsimp only [andThen]
    rw [h3ok]; dsimp only [andThen]
    rw [h4ok]; dsimp only [andThen]
    rw [h5ok]; dsimp only [andThen]
    rw [h6ok]; dsimp only [andThen]
    rw [h7ok]; dsimp only [andThen]
    rw [h8ok]; dsimp only [andThen]
    rw [h9ok]; dsimp only [andThen]
    rw [h9i]
  · rw [h9s, h8s, h7s, h6s, h5s, h4s]
  · intro bno hbno
    rw [hblocks9]
    exact truncateTx_blocks_gt B st3 ino s bno hbno
  · rw [hblocks9, truncateTx_blocks_boundary, h3b, h2b, h1b]

theorem C4_setattr_truncation_witness :
    c4Drv.st.inodes 2 = some c4Attr ∧
      ∃ d1 a1,
        setattr_impl 4 c4Drv 2 none none none (some 5) none none none none none =
          (d1, Except.ok a1) ∧
        a1.size = 5 ∧ d1.st.inodes 2 = some a1 ∧
        (∀ bno, 5 / 4 < bno → d1.st.blocks 2 bno = none) ∧
        d1.st.blocks 2 (5 / 4) = (c4Drv.st.blocks 2 (5 / 4)).map (fun c => c.take (5 % 4)) :=
  ⟨rfl, C4_setattr_truncation 4 c4Drv 2 5 none none none none none none none none
    c4Attr rfl⟩

theorem direntLookup_remove (st : State) (p : Nat) (n : List Nat) :
    direntLookup (direntRemove st p n) p n = none := by
  unfold direntLookup direntRemove
  dsimp only
  have h : (st.dirents.filter (fun e => ¬ (e.1 = (p, n)))).find?
      (fun e => e.1 = (p, n)) = none := by
    rw [List.find?_eq_none]
    intro x hx
    have hmem := (List.mem_filter.mp hx).2
    simp only [decide_not, Bool.not_eq_true', decide_eq_false_iff_not] at hmem
    simp [hmem]
  rw [h]
  rfl

/-- C7: unlinking an existing entry decrements the target's link count by one;
while the count stays positive only the count changes and the blocks survive;
when it reaches zero all blocks and the inode record are removed, and a
subsequent read over the id fails NotFound (which the fuser boundary degrades
to empty data); the directory entry is removed in every case. -/
theorem C7_unlink (B : Nat) (d : Driver) (parent : Nat) (name : List Nat)
    (ino reqLen : Nat) (a : FileAttr) (hd : direntLookup d.st parent name = some ino)
    (ha : d.st.inodes ino = some a) (h1 : 1 ≤ a.nlink) (h2 : a.nlink < 2 ^ 32) :
    ∃ d1, unlink_impl d parent name = (d1, Except.ok ()) ∧
      direntLookup d1.st parent name = none ∧
      (1 < a.nlink →
        d1.st.inodes ino = some { a with nlink := a.nlink - 1 } ∧
        ∀ bno, d1.st.blocks ino bno = d.st.blocks ino bno) ∧
      (a.nlink = 1 →
        d1.st.inodes ino = none ∧ (∀ bno, d1.st.blocks ino bno = none) ∧
        read_impl B d1.st ino 0 reqLen = Except.error Err.notFound) := by
  have hwrap : (a.nlink + (2 ^ 32 - 1)) % 2 ^ 32 = a.nlink - 1 := by
    have hsplit : a.nlink + (2 ^ 32 - 1) = (a.nlink - 1) + 2 ^ 32 := by omega
    rw [hsplit, Nat.add_mod_right, Nat.mod_eq_of_lt (by omega)]
  unfold unlink_impl
  rw [hd]
  dsimp only
  rw [ha]
  dsimp only
  rw [hwrap]
  by_cases hgt : 0 < a.nlink - 1
  · rw [if_pos hgt]
    refine ⟨_, rfl, direntLookup_remove _ parent name, ?_, ?_⟩
    · intro _
      exact ⟨by simp [direntRemove], fun bno => rfl⟩
    · intro h1eq
      omega
  · rw [if_neg hgt]
    refine ⟨_, rfl, direntLookup_remove _ parent name, ?_, ?_⟩
    · intro hlt
      omega
    · intro _
      refine ⟨by simp [direntRemove, inodeRemove], fun bno => ?_, ?_⟩
      · simp [direntRemove, inodeRemove, removeBlocksFrom]
      · unfold read_impl
        rw [show (direntRemove (inodeRemove (removeBlocksFrom d.st ino 0) ino)
            parent name).inodes ino = none from by simp [direntRemove, inodeRemove]]

theorem C7_unlink_witness :
    (direntLookup c7Drv.st 1 [102] = some 2 ∧ c7Drv.st.inodes 2 = some cAttr2 ∧
      1 ≤ cAttr2.nlink ∧ cAttr2.nlink < 2 ^ 32) ∧
      ∃ d1, unlink_impl c7Drv 1 [102] = (d1, Except.ok ()) ∧
        direntLookup d1.st 1 [102] = none ∧
        (1 < cAttr2.nlink →
          d1.st.inodes 2 = some { cAttr2 with nlink := cAttr2.nlink - 1 } ∧
          ∀ bno, d1.st.blocks 2 bno = c7Drv.st.blocks 2 bno) ∧
        (cAttr2.nlink = 1 →
          d1.st.inodes 2 = none ∧ (∀ bno, d1.st.blocks 2 bno = none) ∧
          read_impl 4 d1.st 2 0 5 = Except.error Err.notFound) :=
  ⟨⟨by decide, rfl, by decide, by decide⟩,
    C7_unlink 4 c7Drv 1 [102] 2 5 cAttr2 (by decide) rfl (by decide) (by decide)⟩

theorem divCeil_le_iff {a b c : Nat} (hb : 0 < b) : divCeil a b ≤ c ↔ a ≤ b * c :=
  ceilDiv_le_iff_le_mul hb

theorem le_divCeil_mul {a b : Nat} (hb : 0 < b) : a ≤ divCeil a b * b := by
  rw [Nat.mul_comm]
  exact (divCeil_le_iff hb).mp (Nat.le_refl _)

theorem divCeil_le_div_succ {a b : Nat} (hb : 0 < b) : divCeil a b ≤ a / b + 1 := by
  rw [divCeil_le_iff hb]
  have h1 := Nat.div_add_mod a b
  have h2 := Nat.mod_lt a hb
  calc a = b * (a / b) + a % b := (Nat.div_add_mod a b).symm
    _ ≤ b * (a / b) + b := by omega
    _ = b * (a / b + 1) := by ring

theorem lt_div_succ_mul {a b : Nat} (hb : 0 < b) : a < (a / b + 1) * b := by
  have h1 := Nat.div_add_mod a b
  have h2 := Nat.mod_lt a hb
  calc a = b * (a / b) + a % b := (Nat.div_add_mod a b).symm
    _ < b * (a / b) + b := by omega
    _ = (a / b + 1) * b := by ring

theorem divCeil_mul_self {b : Nat} (hb : 0 < b) (k : Nat) : divCeil (k * b) b = k := by
  apply Nat.le_antisymm
  · rw [divCeil_le_iff hb, Nat.mul_comm]
  · by_contra hcon
    push_neg at hcon
    have h2 : divCeil (k * b) b ≤ k - 1 := by omega
    have h3 := (divCeil_le_iff hb).mp h2
    rw [Nat.mul_comm k b] at h3
    have h4 := Nat.le_of_mul_le_mul_left h3 hb
    omega

theorem divCeil_boundary {a b k : Nat} (hb : 0 < b) (h1 : k * b < a)
    (h2 : a ≤ (k + 1) * b) : divCeil a b = k + 1 := by
  apply Nat.le_antisymm
  · rw [divCeil_le_iff hb, Nat.mul_comm]
    exact h2
  · by_contra hcon
    push_neg at hcon
    have h3 : divCeil a b ≤ k := by omega
    have h4 := (divCeil_le_iff hb).mp h3
    rw [Nat.mul_comm] at h4
    exact absurd (Nat.lt_of_lt_of_le h1 h4) (Nat.lt_irrefl _)

theorem divCeil_le_of_le {a a2 b : Nat} (hb : 0 < b) (h : a ≤ a2) :
    divCeil a b ≤ divCeil a2 b := by
  rw [divCeil_le_iff hb, Nat.mul_comm]
  exact h.trans (le_divCeil_mul hb)

theorem take_append_left {l1 l2 : List Nat} {n : Nat} (h : l1.length = n) :
    (l1 ++ l2).take n = l1 := by
  subst h
  exact List.take_left l1 l2

theorem drop_append_left {l1 l2 : List Nat} {n : Nat} (h : l1.length = n) :
    (l1 ++ l2).drop n = l2 := by
  subst h
  exact List.drop_left l1 l2

theorem length_splice (xs ys : List Nat) (o : Nat) (ho : o ≤ xs.length) :
    (splice xs o ys).length = max xs.length (o + ys.length) := by
  simp [splice]
  omega

theorem splice_nil (xs : List Nat) (o : Nat) (ho : o ≤ xs.length) : splice xs o [] = xs := by
  simp [splice]

theorem splice_zero_append (xs ys : List Nat) :
    splice xs 0 ys = ys ++ xs.drop ys.length := by
  simp [splice]

theorem splice_take_prefix (xs ys : List Nat) (o : Nat) (ho : o ≤ xs.length) :
    (splice xs o ys).take o = xs.take o := by
  unfold splice
  rw [List.append_assoc, take_append_left (show (xs.take o).length = o by
    rw [List.length_take]; omega)]

theorem splice_drop_suffix (xs ys : List Nat) (o : Nat) (ho : o ≤ xs.length) :
    (splice xs o ys).drop (o + ys.length) = xs.drop (o + ys.length) := by
  unfold splice
  rw [List.append_assoc, show xs.take o ++ (ys ++ xs.drop (o + ys.length)) =
    (xs.take o ++ ys) ++ xs.drop (o + ys.length) from (List.append_assoc _ _ _).symm]
  rw [drop_append_left]
  rw [List.length_append, List.length_take]
  omega

theorem splice_append (xs ys zs : List Nat) (o : Nat) (ho : o ≤ xs.length) :
    splice (splice xs o ys) (o + ys.length) zs = splice xs o (ys ++ zs) := by
  have hto : (xs.take o).length = o := by rw [List.length_take]; omega
  have h1 : (splice xs o ys).take (o + ys.length) = xs.take o ++ ys := by
    unfold splice
    rw [show xs.take o ++ ys ++ xs.drop (o + ys.length) =
      (xs.take o ++ ys) ++ xs.drop (o + ys.length) from by rw [List.append_assoc]]
    rw [take_append_left]
    rw [List.length_append, hto]
  have h2 : (splice xs o ys).drop (o + ys.length + zs.length) =
      xs.drop (o + (ys ++ zs).length) := by
    have h3 : (splice xs o ys).drop (o + ys.length + zs.length) =
        ((splice xs o ys).drop (o + ys.length)).drop zs.length := by
      rw [List.drop_drop]
    rw [h3, splice_drop_suffix xs ys o ho, List.drop_drop]
    congr 1
    simp
    omega
  show (splice xs o ys).take (o + ys.length) ++ zs ++
      (splice xs o ys).drop (o + ys.length + zs.length) = _
  rw [h1, h2]
  unfold splice
  simp [List.append_assoc]

theorem blockAt_none {B : Nat} {xs : List Nat} {bno : Nat} (h : xs.length ≤ bno * B) :
    blockAt B xs bno = none := by
  unfold blockAt
  rw [if_neg (by omega)]

theorem blockAt_some {B : Nat} {xs : List Nat} {bno : Nat} (h : bno * B < xs.length) :
    blockAt B xs bno = some ((xs.drop (bno * B)).take B) := by
  unfold blockAt
  rw [if_pos h]

theorem blockAt_congr_prefix {B : Nat} {s t : List Nat} {k n : Nat} (hB : 0 < B)
    (hs : n ≤ s.length) (ht : n ≤ t.length) (heq : s.take n = t.take n)
    (hk : k * B + B ≤ n) : blockAt B s k = blockAt B t k := by
  unfold blockAt
  have h1 : k * B < s.length := by omega
  have h2 : k * B < t.length := by omega
  rw [if_pos h1, if_pos h2]
  have hcs : (s.drop (k * B)).take B = ((s.take n).drop (k * B)).take B := by
    rw [List.drop_take, List.take_take]
    congr 1
    omega
  have hct : (t.drop (k * B)).take B = ((t.take n).drop (k * B)).take B := by
    rw [List.drop_take, List.take_take]
    congr 1
    omega
  rw [hcs, hct, heq]

theorem blockAt_congr_suffix {B : Nat} {s t : List Nat} {k m : Nat}
    (heq : s.drop m = t.drop m) (hls : m ≤ s.length) (hlt : m ≤ t.length)
    (hk : m ≤ k * B) : blockAt B s k = blockAt B t k := by
  have hlen : s.length - m = t.length - m := by
    rw [← List.length_drop, heq, List.length_drop]
  unfold blockAt
  have hex : k * B < s.length ↔ k * B < t.length := by omega
  by_cases h1 : k * B < s.length
  · rw [if_pos h1, if_pos (hex.mp h1)]
    have hds : s.drop (k * B) = (s.drop m).drop (k * B - m) := by
      rw [List.drop_drop]
      congr 1
      omega
    have hdt : t.drop (k * B) = (t.drop m).drop (k * B - m) := by
      rw [List.drop_drop]
      congr 1
      omega
    rw [hds, hdt, heq]
  · rw [if_neg h1, if_neg (fun hc => h1 (hex.mpr hc))]

theorem splice_self_block (B : Nat) (cur ys : List Nat) (bno wo : Nat)
    (he : bno * B ≤ wo) (hwo : wo < bno * B + B) (hlen : wo ≤ cur.length)
    (hys : ys.length ≤ B - (wo - bno * B)) :
    ((splice cur wo ys).drop (bno * B)).take B =
      ((cur.drop (bno * B)).take B).take (wo - bno * B) ++ ys ++
        ((cur.drop (bno * B)).take B).drop (wo - bno * B + ys.length) := by
  generalize hgen : bno * B = e at he hwo hys ⊢
  have htw : (cur.take wo).length = wo := by rw [List.length_take]; omega
  have hstep1 : (splice cur wo ys).drop e =
      (cur.drop e).take (wo - e) ++ (ys ++ cur.drop (wo + ys.length)) := by
    unfold splice
    rw [List.append_assoc, List.drop_append_eq_append_drop, htw,
      show e - wo = 0 from by omega, List.drop_zero, List.drop_take]
  have hlenP : ((cur.drop e).take (wo - e)).length = wo - e := by
    rw [List.length_take, List.length_drop]
    omega
  rw [hstep1, List.take_append_eq_append_take, hlenP,
    List.take_of_length_le (le_of_eq_of_le hlenP (by omega)),
    List.take_append_eq_append_take,
    List.take_of_length_le (show ys.length ≤ B - (wo - e) from hys)]
  have hrhs1 : ((cur.drop e).take B).take (wo - e) =
      (cur.drop e).take (wo - e) := by
    rw [List.take_take]
    congr 1
    omega
  have hrhs2 : ((cur.drop e).take B).drop (wo - e + ys.length) =
      (cur.drop (wo + ys.length)).take (B - (wo - e + ys.length)) := by
    rw [List.drop_take, List.drop_drop,
      show e + (wo - e + ys.length) = wo + ys.length from by omega]
  rw [hrhs1, hrhs2,
    show B - (wo - e) - ys.length = B - (wo - e + ys.length) from by omega]
  simp only [List.append_assoc]

theorem blockAt_splice (B : Nat) (hB : 0 < B) (cur ys : List Nat) (bno wo : Nat)
    (he : bno * B ≤ wo) (hwo : wo < bno * B + B) (hlen : wo ≤ cur.length)
    (hlt : bno * B < cur.length) (hys : ys.length ≤ B - (wo - bno * B)) (k : Nat) :
    blockAt B (splice cur wo ys) k =
      if k = bno then
        some (((cur.drop (bno * B)).take B).take (wo - bno * B) ++ ys ++
          ((cur.drop (bno * B)).take B).drop (wo - bno * B + ys.length))
      else blockAt B cur k := by
  by_cases hk : k = bno
  · subst hk
    rw [if_pos rfl]
    have hex : k * B < (splice cur wo ys).length := by
      rw [length_splice _ _ _ hlen]
      omega
    rw [blockAt_some hex, splice_self_block B cur ys k wo he hwo hlen hys]
  · rw [if_neg hk]
    rcases Nat.lt_or_ge k bno with hklt | hkge
    · apply blockAt_congr_prefix hB (n := wo)
      · rw [length_splice _ _ _ hlen]
        omega
      · exact hlen
      · exact splice_take_prefix cur ys wo hlen
      · have h1 : (k + 1) * B ≤ bno * B := Nat.mul_le_mul_right B (by omega)
        have h2 : (k + 1) * B = k * B + B := by ring
        omega
    · have hkgt : bno < k := by omega
      have hbp1 : (bno + 1) * B = bno * B + B := by ring
      have h2 : (bno + 1) * B ≤ k * B := Nat.mul_le_mul_right B (by omega)
      by_cases hin : wo + ys.length ≤ cur.length
      · apply blockAt_congr_suffix (m := wo + ys.length)
        · exact splice_drop_suffix cur ys wo hlen
        · rw [length_splice _ _ _ hlen]
          omega
        · exact hin
        · omega
      · have hsl : (splice cur wo ys).length = wo + ys.length := by
          rw [length_splice _ _ _ hlen]
          omega
        rw [blockAt_none (show (splice cur wo ys).length ≤ k * B from by omega),
          blockAt_none (show cur.length ≤ k * B from by omega)]

theorem overlay_none (B ino : Nat) :
    ∀ fuel (st : State) bno wo data size,
      (∀ k, bno ≤ k → st.blocks ino k = none) →
      overlay B ino fuel st bno wo data size = ⟨st, data, wo, size⟩ := by
  intro fuel
  induction fuel with
  | zero => intro st bno wo data size _; rfl
  | succ fuel ih =>
      intro st bno wo data size hn
      simp only [overlay, hn bno (Nat.le_refl bno)]
      exact ih st (bno + 1) wo data size (fun k hk => hn k (by omega))

set_option maxHeartbeats 1600000 in
theorem overlay_spec (B ino : Nat) (hB : 0 < B) :
    ∀ fuel (st : State) (cur data : List Nat) (bno wo size : Nat),
      (∀ k, st.blocks ino k = blockAt B cur k) →
      bno * B ≤ wo → wo < bno * B + B → wo ≤ cur.length →
      divCeil cur.length B ≤ bno + fuel →
      ∃ st1,
        overlay B ino fuel st bno wo data size =
          ⟨st1, data.drop (min data.length (divCeil cur.length B * B - wo)),
            wo + min data.length (divCeil cur.length B * B - wo),
            size + (wo + min data.length (divCeil cur.length B * B - wo) - cur.length)⟩ ∧
        (∀ k, st1.blocks ino k =
          blockAt B
            (splice cur wo (data.take (min data.length (divCeil cur.length B * B - wo)))) k) ∧
        st1.inodes = st.inodes ∧ st1.dirents = st.dirents := by
  intro fuel
  induction fuel with
  | zero =>
      intro st cur data bno wo size hbl he hwo hlen hfuel
      have hE : divCeil cur.length B * B ≤ wo :=
        Nat.le_trans (Nat.mul_le_mul_right B (by omega)) he
      have hc : min data.length (divCeil cur.length B * B - wo) = 0 := by omega
      refine ⟨st, ?_, ?_, rfl, rfl⟩
      · rw [hc, List.drop_zero, Nat.add_zero,
          show wo - cur.length = 0 from by omega, Nat.add_zero]
        rfl
      · intro k
        rw [hc, List.take_zero, splice_nil cur wo hlen]
        exact hbl k
  | succ fuel ih =>
      intro st cur data bno wo size hbl he hwo hlen hfuel
      by_cases hex : bno * B < cur.length
      · -- the block exists
        have hcontent : st.blocks ino bno = some ((cur.drop (bno * B)).take B) := by
          rw [hbl bno, blockAt_some hex]
        have hclen : ((cur.drop (bno * B)).take B).length = min B (cur.length - bno * B) := by
          rw [List.length_take, List.length_drop]
        have hbp1 : (bno + 1) * B = bno * B + B := by ring
        have hEge : bno * B + B ≤ divCeil cur.length B * B := by
          rw [← hbp1]
          apply Nat.mul_le_mul_right
          by_contra hcon
          push_neg at hcon
          have h3 : divCeil cur.length B ≤ bno := by omega
          have h4 := (divCeil_le_iff hB).mp h3
          rw [Nat.mul_comm] at h4
          omega
        simp only [overlay, hcontent]
        dsimp only [blockWriteAt]
        obtain ⟨c1, hc1def⟩ : ∃ c, min data.length (B - (wo - bno * B)) = c := ⟨_, rfl⟩
        rw [hc1def]
        by_cases hdata : data = []
        · subst hdata
          have hc10 : c1 = 0 := by
            simp at hc1def
            omega
          refine ⟨st, ?_, ?_, rfl, rfl⟩
          · rw [hc10]
            simp only [List.drop_nil, List.length_nil, Nat.zero_min, List.drop_zero,
              Nat.add_zero, lt_self_iff_false, if_false, if_true]
            congr 1
            omega
          · intro k
            simp only [List.length_nil, Nat.zero_min, List.take_zero, List.take_nil]
            rw [show splice cur wo [] = cur from splice_nil cur wo hlen]
            exact hbl k
        · have hdlen : 0 < data.length := List.length_pos.mpr hdata
          have hc1pos : 0 < c1 := by omega
          rw [if_pos hc1pos]
          have htklen : (data.take c1).length = c1 := by
            rw [List.length_take]
            omega
          have hbl1 : ∀ k,
              (setBlock st ino bno
                (((cur.drop (bno * B)).take B).take (wo - bno * B) ++ data.take c1 ++
                  ((cur.drop (bno * B)).take B).drop (wo - bno * B + c1))).blocks ino k =
              blockAt B (splice cur wo (data.take c1)) k := by
            intro k
            rw [blockAt_splice B hB cur (data.take c1) bno wo he hwo hlen hex
              (by rw [htklen]; omega) k, htklen]
            dsimp only [setBlock]
            by_cases hk : k = bno
            · subst hk
              rw [if_pos ⟨rfl, rfl⟩, if_pos rfl]
            · rw [if_neg (fun hcon => hk hcon.2), if_neg hk]
              exact hbl k
          by_cases hrest : data.drop c1 = []
          · rw [if_pos hrest]
            have hc1all : c1 = data.length := by
              have hle := List.drop_eq_nil_iff_le.mp hrest
              omega
            have hceq : min data.length (divCeil cur.length B * B - wo) = c1 := by
              omega
            refine ⟨setBlock st ino bno
              (((cur.drop (bno * B)).take B).take (wo - bno * B) ++ data.take c1 ++
                ((cur.drop (bno * B)).take B).drop (wo - bno * B + c1)), ?_, ?_, rfl, rfl⟩
            · rw [hceq,
                show size + (wo - bno * B + c1 - ((cur.drop (bno * B)).take B).length) =
                  size + (wo + c1 - cur.length) from by rw [hclen]; omega]
            · intro k
              rw [hceq]
              exact hbl1 k
          · rw [if_neg hrest]
            have hc1B : c1 = B - (wo - bno * B) := by
              have hgt : ¬ data.length ≤ c1 := fun hcon =>
                hrest (List.drop_eq_nil_iff_le.mpr hcon)
              omega
            have hlen1 : (splice cur wo (data.take c1)).length = max cur.length (wo + c1) := by
              rw [length_splice cur (data.take c1) wo hlen, htklen]
            have hE1 : divCeil (splice cur wo (data.take c1)).length B =
                divCeil cur.length B := by
              rcases Nat.le_total (wo + c1) cur.length with hmx | hmx
              · rw [hlen1, Nat.max_eq_left hmx]
              · rw [hlen1, Nat.max_eq_right hmx]
                have hwoc : wo + c1 = (bno + 1) * B := by omega
                rw [hwoc, divCeil_mul_self hB]
                exact (divCeil_boundary hB hex (by omega)).symm
            obtain ⟨st2, hov2, hbl2, hin2, hdr2⟩ :=
              ih (setBlock st ino bno
                    (((cur.drop (bno * B)).take B).take (wo - bno * B) ++ data.take c1 ++
                      ((cur.drop (bno * B)).take B).drop (wo - bno * B + c1)))
                (splice cur wo (data.take c1)) (data.drop c1) (bno + 1) (wo + c1)
                (size + (wo - bno * B + c1 - ((cur.drop (bno * B)).take B).length))
                hbl1 (by omega) (by omega)
                (by rw [hlen1]; omega)
                (by rw [hE1]; omega)
            obtain ⟨c2, hc2def⟩ : ∃ c,
                min (data.drop c1).length
                  (divCeil (splice cur wo (data.take c1)).length B * B - (wo + c1)) = c :=
              ⟨_, rfl⟩
            rw [hc2def] at hov2 hbl2
            rw [hov2]
            have hc2eq : min (data.length - c1)
                (divCeil cur.length B * B - (wo + c1)) = c2 := by
              rw [← hc2def, hE1, List.length_drop]
            have hcsum : min data.length (divCeil cur.length B * B - wo) = c1 + c2 := by
              omega
            refine ⟨st2, ?_, ?_, hin2, hdr2⟩
            · rw [hcsum,
                show (data.drop c1).drop c2 = data.drop (c1 + c2) from by rw [List.drop_drop],
                show size + (wo - bno * B + c1 - ((cur.drop (bno * B)).take B).length) +
                    (wo + c1 + c2 - (splice cur wo (data.take c1)).length) =
                  size + (wo + (c1 + c2) - cur.length) from by rw [hlen1, hclen]; omega,
                show wo + c1 + c2 = wo + (c1 + c2) from by omega]
            · intro k
              rw [hcsum, hbl2 k]
              congr 1
              have hsa := splice_append cur (data.take c1) ((data.drop c1).take c2) wo hlen
              rw [htklen] at hsa
              rw [hsa]
              congr 1
              rw [← List.take_add]
      · -- no block at bno: the scan runs off the end
        have h1 : cur.length ≤ bno * B := by omega
        have heq2 : cur.length = bno * B := by omega
        have hdc : divCeil cur.length B = bno := by
          rw [heq2]
          exact divCeil_mul_self hB bno
        have hc : min data.length (divCeil cur.length B * B - wo) = 0 := by
          rw [hdc]
          omega
        have hnone : ∀ k, bno ≤ k → st.blocks ino k = none := by
          intro k hk
          rw [hbl k]
          exact blockAt_none (heq2.le.trans (Nat.mul_le_mul_right B hk))
        rw [overlay_none B ino (fuel + 1) st bno wo data size hnone]
        refine ⟨st, ?_, ?_, rfl, rfl⟩
        · rw [hc, List.drop_zero, Nat.add_zero,
            show wo - cur.length = 0 from by omega, Nat.add_zero]
        · intro k
          rw [hc, List.take_zero, splice_nil cur wo hlen]
          exact hbl k

theorem createLoop_nil (B ino : Nat) (fuel : Nat) (st : State) (off size : Nat) :
    createLoop B ino fuel st off [] size = (st, size) := by
  cases fuel with
  | zero => rfl
  | succ fuel => simp [createLoop]

theorem setBlock_append (B ino : Nat) (hB : 0 < B) (st : State) (zs data : List Nat)
    (hbl : ∀ k, st.blocks ino k = blockAt B zs k) (hal : zs.length % B = 0)
    (hpos : ¬ data = []) (hle : data.length ≤ B) (k : Nat) :
    (setBlock st ino (zs.length / B) data).blocks ino k = blockAt B (zs ++ data) k := by
  have hqm := Nat.div_add_mod zs.length B
  have hzb : zs.length / B * B = zs.length := by
    rw [Nat.mul_comm]
    omega
  have hdpos : 0 < data.length := List.length_pos.mpr hpos
  dsimp only [setBlock]
  by_cases hk : k = zs.length / B
  · subst hk
    rw [if_pos ⟨rfl, rfl⟩]
    have hex : zs.length / B * B < (zs ++ data).length := by
      rw [List.length_append]
      omega
    rw [blockAt_some hex, hzb, drop_append_left rfl, List.take_of_length_le hle]
  · rw [if_neg (fun hcon => hk hcon.2), hbl k]
    rcases Nat.lt_or_ge k (zs.length / B) with hklt | hkge
    · apply blockAt_congr_prefix hB (n := zs.length)
      · exact Nat.le_refl _
      · rw [List.length_append]; omega
      · rw [List.take_length, take_append_left rfl]
      · have h2 : (k + 1) * B ≤ zs.length / B * B := Nat.mul_le_mul_right B (by omega)
        have h3 : (k + 1) * B = k * B + B := by ring
        omega
    · have hkgt : zs.length / B < k := by omega
      have h2 : (zs.length / B + 1) * B ≤ k * B := Nat.mul_le_mul_right B (by omega)
      have h3 : (zs.length / B + 1) * B = zs.length / B * B + B := by ring
      rw [blockAt_none (by omega : zs.length ≤ k * B),
        blockAt_none (by rw [List.length_append]; omega)]

theorem createLoop_spec (B ino : Nat) (hB : 0 < B) :
    ∀ fuel (data : List Nat) (st : State) (zs : List Nat) (off size : Nat),
      data.length ≤ fuel → off = zs.length →
      (∀ k, st.blocks ino k = blockAt B zs k) →
      zs.length % B = 0 →
      ∃ st1, createLoop B ino fuel st off data size = (st1, size + data.length) ∧
        (∀ k, st1.blocks ino k = blockAt B (zs ++ data) k) ∧
        st1.inodes = st.inodes ∧ st1.dirents = st.dirents := by
  intro fuel
  induction fuel with
  | zero =>
      intro data st zs off size hf hoff hbl hal
      have hdata : data = [] := List.length_eq_zero.mp (by omega)
      subst hdata
      refine ⟨st, ?_, ?_, rfl, rfl⟩
      · simp [createLoop]
      · intro k
        simpa using hbl k
  | succ fuel ih =>
      intro data st zs off size hf hoff hbl hal
      subst hoff
      by_cases hdata : data = []
      · subst hdata
        refine ⟨st, ?_, ?_, rfl, rfl⟩
        · simp [createLoop]
        · intro k
          simpa using hbl k
      · simp only [createLoop, if_neg hdata]
        rw [hal, Nat.sub_zero]
        obtain ⟨w, hwdef⟩ : ∃ w, min data.length B = w := ⟨_, rfl⟩
        rw [hwdef]
        have hdpos : 0 < data.length := List.length_pos.mpr hdata
        have hwpos : 0 < w := by omega
        have hwle : w ≤ B := by omega
        have hw2 : w ≤ data.length := by omega
        have htk : (data.take w).length = w := by
          rw [List.length_take]
          omega
        have hbl1 : ∀ k, (setBlock st ino (zs.length / B) (data.take w)).blocks ino k =
            blockAt B (zs ++ data.take w) k :=
          fun k => setBlock_append B ino hB st zs (data.take w) hbl hal
            (fun hcon => by rw [hcon] at htk; simp at htk; omega)
            (by rw [htk]; exact hwle) k
        have hlzs1 : (zs ++ data.take w).length = zs.length + w := by
          rw [List.length_append, htk]
        by_cases hrest : data.drop w = []
        · have hwall : w = data.length := by
            have := List.drop_eq_nil_iff_le.mp hrest
            omega
          rw [hrest, createLoop_nil B ino fuel _ _ _]
          refine ⟨setBlock st ino (zs.length / B) (data.take w), ?_, ?_, rfl, rfl⟩
          · rw [hwall]
          · intro k
            rw [hbl1 k,
              show data.take w = data from by rw [hwall]; exact List.take_length data]
        · have hwB : w = B := by
            have hgt : ¬ data.length ≤ w := fun hcon =>
              hrest (List.drop_eq_nil_iff_le.mpr hcon)
            omega
          have hal1 : (zs ++ data.take w).length % B = 0 := by
            rw [hlzs1, hwB, Nat.add_mod_right]
            exact hal
          obtain ⟨st2, hcl2, hbl2, hin2, hdr2⟩ :=
            ih (data.drop w) (setBlock st ino (zs.length / B) (data.take w))
              (zs ++ data.take w) (zs.length + w) (size + w)
              (by rw [List.length_drop]; omega) hlzs1.symm hbl1 hal1
          rw [hcl2]
          refine ⟨st2, ?_, ?_, hin2, hdr2⟩
          · rw [show size + w + (data.drop w).length = size + data.length from by
              rw [List.length_drop]; omega]
          · intro k
            rw [hbl2 k]
            congr 1
            rw [List.append_assoc, List.take_append_drop]

set_option maxHeartbeats 1600000 in
theorem writeTx_spec (B : Nat) (hB : 0 < B) (st : State) (ino o : Nat) (xs ys : List Nat)
    (a : FileAttr) (ha : st.inodes ino = some a) (hsz : a.size = xs.length)
    (hbl : ∀ k, st.blocks ino k = blockAt B xs k) (ho : o ≤ xs.length) :
    ∃ st2, writeTx B st ino o ys = Except.ok st2 ∧
      st2.inodes ino = some { a with
        size := (splice xs o ys).length
        blocks := divCeil (splice xs o ys).length 512 } ∧
      (∀ k, st2.blocks ino k = blockAt B (splice xs o ys) k) ∧
      (∀ j, ¬ j = ino → st2.inodes j = st.inodes j) ∧
      (∀ j k, ¬ j = ino → st2.blocks j k = st.blocks j k) ∧
      st2.dirents = st.dirents := by
  unfold writeTx
  rw [ha]
  dsimp only
  have hdm := Nat.div_add_mod o B
  have hmlt : o % B < B := Nat.mod_lt o hB
  have hcm : B * (o / B) = o / B * B := Nat.mul_comm B (o / B)
  obtain ⟨st1, hov, hbl1, hin1, hdr1⟩ :=
    overlay_spec B ino hB (a.size / B + 1) st xs ys (o / B) o a.size hbl
      (Nat.div_mul_le_self o B) (by omega) ho
      (by
        rw [hsz]
        calc divCeil xs.length B ≤ xs.length / B + 1 := divCeil_le_div_succ hB
          _ ≤ o / B + (xs.length / B + 1) := Nat.le_add_left _ _)
  have hfr := (overlay_frame B ino (a.size / B + 1) st (o / B) o ys a.size).2.2
  rw [hov] at hfr
  rw [hov]
  dsimp only
  dsimp only at hfr
  obtain ⟨c, hcdef⟩ : ∃ c, min ys.length (divCeil xs.length B * B - o) = c := ⟨_, rfl⟩
  rw [hcdef] at hbl1 ⊢
  have hcle : c ≤ ys.length := by omega
  have hEw : xs.length ≤ divCeil xs.length B * B := le_divCeil_mul hB
  have hslen : (splice xs o ys).length = max xs.length (o + ys.length) :=
    length_splice xs ys o ho
  by_cases hcall : c = ys.length
  · have hrest : ys.drop c = [] := by
      rw [hcall]
      exact List.drop_length ys
    rw [hrest, show ([] : List Nat).length = 0 from rfl, createLoop_nil]
    dsimp only
    obtain ⟨s1, hs1def⟩ : ∃ s, a.size + (o + c - xs.length) = s := ⟨_, rfl⟩
    rw [hs1def]
    have hin1' : st1.inodes ino = some a := by rw [hin1]; exact ha
    rw [patchWith_ok _ hin1']
    dsimp only [andThen]
    have h3 : ({ st1 with inodes := fun i =>
        if i = ino then some { a with size := s1 } else st1.inodes i } : State).inodes ino =
        some { a with size := s1 } := by simp
    rw [patchWith_ok _ h3]
    have hs1 : s1 = (splice xs o ys).length := by
      rw [← hs1def, hslen, hsz]
      omega
    refine ⟨_, rfl, ?_, ?_, ?_, ?_, ?_⟩
    · dsimp only
      rw [if_pos rfl, hs1]
    · intro k
      dsimp only
      rw [hbl1 k, hcall, List.take_length]
    · intro j hj
      dsimp only
      rw [if_neg hj, if_neg hj, hin1]
    · intro j k hj
      dsimp only
      exact hfr j k hj
    · dsimp only
      exact hdr1
  · have hcE : c = divCeil xs.length B * B - o := by omega
    have hoE : o + c = divCeil xs.length B * B := by omega
    have hrest_ne : ¬ ys.drop c = [] := by
      intro hcon
      have := List.drop_eq_nil_iff.mp hcon
      omega
    have htkc : (ys.take c).length = c := by
      rw [List.length_take]
      omega
    have hzlen : (splice xs o (ys.take c)).length = o + c := by
      rw [length_splice xs (ys.take c) o ho, htkc]
      omega
    have hal : (splice xs o (ys.take c)).length % B = 0 := by
      rw [hzlen, hoE]
      exact Nat.mul_mod_left (divCeil xs.length B) B
    obtain ⟨st2, hcl, hbl2, hin2, hdr2⟩ :=
      createLoop_spec B ino hB (ys.drop c).length (ys.drop c) st1 (splice xs o (ys.take c))
        (o + c) (a.size + (o + c - xs.length)) (Nat.le_refl _) hzlen.symm hbl1 hal
    rw [hcl]
    dsimp only
    obtain ⟨s2, hs2def⟩ : ∃ s, a.size + (o + c - xs.length) + (ys.drop c).length = s := ⟨_, rfl⟩
    rw [hs2def]
    have hin2' : st2.inodes ino = some a := by rw [hin2, hin1]; exact ha
    rw [patchWith_ok _ hin2']
    dsimp only [andThen]
    have h3 : ({ st2 with inodes := fun i =>
        if i = ino then some { a with size := s2 } else st2.inodes i } : State).inodes ino =
        some { a with size := s2 } := by simp
    rw [patchWith_ok _ h3]
    have hs2 : s2 = (splice xs o ys).length := by
      rw [← hs2def, hslen, List.length_drop, hsz]
      omega
    have hcat : splice xs o (ys.take c) ++ ys.drop c = splice xs o ys := by
      unfold splice
      rw [List.drop_eq_nil_of_le (show xs.length ≤ o + (ys.take c).length by
            rw [htkc]; omega),
          List.drop_eq_nil_of_le (show xs.length ≤ o + ys.length by omega),
          List.append_nil, List.append_nil, List.append_assoc, List.take_append_drop]
    refine ⟨_, rfl, ?_, ?_, ?_, ?_, ?_⟩
    · dsimp only
      rw [if_pos rfl, hs2]
    · intro k
      dsimp only
      rw [hbl2 k, hcat]
    · intro j hj
      dsimp only
      rw [if_neg hj, if_neg hj, hin2, hin1]
    · intro j k hj
      dsimp only
      rw [show st2.blocks j k = st1.blocks j k from by
        have hclf := (createLoop_frame B ino (ys.drop c).length st1 (o + c) (ys.drop c)
          (a.size + (o + c - xs.length))).2.2 j k hj
        rw [hcl] at hclf
        exact hclf]
      exact hfr j k hj
    · dsimp only
      rw [hdr2, hdr1]

set_option maxHeartbeats 800000 in
theorem readScan_chunked (B : Nat) (hB : 0 < B) (st : State) (ino : Nat) (xs : List Nat)
    (hbl : ∀ k, st.blocks ino k = blockAt B xs k) :
    ∀ fuel bno (buf : List Nat) cap,
      buf.length ≤ cap →
      divCeil xs.length B ≤ bno + fuel →
      readScan B st ino cap fuel bno buf =
        buf ++ (xs.drop (bno * B)).take (cap - buf.length) := by
  intro fuel
  induction fuel with
  | zero =>
      intro bno buf cap hb hf
      have h1 : xs.length ≤ bno * B :=
        Nat.le_trans (le_divCeil_mul hB) (Nat.mul_le_mul_right B (by omega))
      rw [show readScan B st ino cap 0 bno buf = buf from rfl,
        List.drop_eq_nil_of_le h1, List.take_nil, List.append_nil]
  | succ fuel ih =>
      intro bno buf cap hb hf
      simp only [readScan]
      cases hblk : st.blocks ino bno with
      | none =>
          have h2 := hbl bno
          rw [hblk] at h2
          have h1 : xs.length ≤ bno * B := by
            by_contra hcon
            push_neg at hcon
            rw [blockAt_some hcon] at h2
            simp at h2
          rw [readScan_none B st ino cap fuel (bno + 1) buf (fun k hk => by
              rw [hbl k]
              exact blockAt_none (Nat.le_trans h1 (Nat.mul_le_mul_right B (by omega)))),
            List.drop_eq_nil_of_le h1, List.take_nil, List.append_nil]
      | some content =>
          dsimp only
          have h2 := hbl bno
          rw [hblk] at h2
          have hex : bno * B < xs.length := by
            by_contra hcon
            push_neg at hcon
            rw [blockAt_none hcon] at h2
            simp at h2
          rw [blockAt_some hex] at h2
          have hcontent : content = (xs.drop (bno * B)).take B := Option.some.inj h2
          have hclen : content.length = min B (xs.length - bno * B) := by
            rw [hcontent, List.length_take, List.length_drop]
          have hb1 : (buf ++ content.take (cap - buf.length)).length =
              buf.length + min (cap - buf.length) content.length := by simp
          by_cases hlt : (buf ++ content.take (cap - buf.length)).length < cap
          · rw [if_pos hlt]
            have hcl : content.length < cap - buf.length := by omega
            have htc : content.take (cap - buf.length) = content :=
              List.take_of_length_le (by omega)
            rw [ih (bno + 1) (buf ++ content.take (cap - buf.length)) cap
              (Nat.le_of_lt hlt) (by omega)]
            rw [htc, show (bno + 1) * B = bno * B + B from by ring]
            have hdd : (xs.drop (bno * B)).drop B = xs.drop (bno * B + B) := by
              rw [List.drop_drop, Nat.add_comm]
            have hdec : xs.drop (bno * B) = content ++ xs.drop (bno * B + B) := by
              rw [← hdd, hcontent, List.take_append_drop]
            rw [hdec, List.take_append_eq_append_take, htc]
            have hn : cap - (buf ++ content).length = cap - buf.length - content.length := by
              rw [List.length_append]
              omega
            rw [hn, List.append_assoc]
          · rw [if_neg hlt]
            congr 1
            rw [hcontent, List.take_take]
            congr 1
            omega

theorem read_all (B : Nat) (hB : 0 < B) (st : State) (ino : Nat) (xs : List Nat)
    (hch : ChunkedAt B st ino xs) (hsz : xs.length < 2 ^ 64) (reqLen : Nat) :
    read_impl B st ino 0 reqLen = Except.ok (xs.take (min reqLen xs.length)) := by
  obtain ⟨⟨a, ha, hasz⟩, hbl⟩ := hch
  unfold read_impl
  rw [ha]
  dsimp only
  have hrem : u64sub a.size 0 = a.size := by
    unfold u64sub
    omega
  rw [hrem, hasz]
  rw [readScan_chunked B hB st ino xs hbl (xs.length / B + 1) (0 / B) []
    (min reqLen xs.length) (by simp)
    (by
      rw [Nat.zero_div]
      have := divCeil_le_div_succ (a := xs.length) hB
      omega)]
  simp [Nat.zero_div]

end Nightshift
